import Mathlib

/-
Verification of the math-aware markdown preprocessor and the
tree-to-markdown serializer interface of the flare-stack-blog content
pipeline.

The preprocessor (`preprocessMathInMarkdown`) is translated from the
TypeScript source: it protects tilde-fenced blocks and backtick code
spans behind NUL-wrapped placeholder tokens, rewrites `$$...$$` block
math and `$...$` inline math into inert HTML marker elements (applying a
currency/range heuristic to inline candidates), and finally substitutes
the protected literals back.  Strings are modelled as `List Char`; each
JavaScript regex pass is modelled as an explicit left-to-right scanner
with the same match semantics (lazy interiors, greedy backtick runs with
backtracking, global non-overlapping replacement).  Scanners recurse on
a fuel argument that is initialised with the length of the scanned
string; every step consumes at least one input character, so the fuel
never runs out on the initial call.
-/

set_option maxRecDepth 20000

namespace FlareStack

abbrev Str := List Char

def nulChar : Char := Char.ofNat 0

def backquoteChar : Char := Char.ofNat 96

def placeholderBody : Str := "MATH_PLACEHOLDER_".toList

/-- The decimal digit character for `k % 10`. -/
def digitChar10 (k : Nat) : Char :=
  if k % 10 = 0 then '0'
  else if k % 10 = 1 then '1'
  else if k % 10 = 2 then '2'
  else if k % 10 = 3 then '3'
  else if k % 10 = 4 then '4'
  else if k % 10 = 5 then '5'
  else if k % 10 = 6 then '6'
  else if k % 10 = 7 then '7'
  else if k % 10 = 8 then '8'
  else '9'

/-- Decimal digits of `n`, most significant first, with explicit fuel
(`natDigitsAux f 0 = []`). -/
def natDigitsAux : Nat → Nat → Str
  | 0, _ => []
  | f + 1, n =>
    if n = 0 then [] else natDigitsAux f (n / 10) ++ [digitChar10 n]

/-- The decimal representation of `n` (the text JavaScript interpolates
for `${idx}`). -/
def natDigits (n : Nat) : Str :=
  if n = 0 then ['0'] else natDigitsAux n n

/-- The placeholder token produced by `savePlaceholder` for index `idx`:
the text `\u0000MATH_PLACEHOLDER_${idx}\u0000`. -/
def sentinel (i : Nat) : Str :=
  nulChar :: (placeholderBody ++ natDigits i ++ [nulChar])

/-- One global replacement of the single character `t` by the string `r`
(the building block of `escapeHtmlAttr`, whose patterns are single
characters, so `String.prototype.replace` with a `g` flag is exactly a
character-wise flat map). -/
def replaceChar (t : Char) (r : Str) (s : Str) : Str :=
  s.flatMap (fun c => if c = t then r else [c])

/-- `escapeHtmlAttr` from the source: replace `&` by `&amp;`, then `"` by
`&quot;`, then `<` by `&lt;`, then `>` by `&gt;`, in that order. -/
def escapeHtmlAttr (s : Str) : Str :=
  replaceChar '>' ("&gt;".toList)
    (replaceChar '<' ("&lt;".toList)
      (replaceChar '"' ("&quot;".toList)
        (replaceChar '&' ("&amp;".toList) s)))

/-- The JavaScript whitespace class `\s` (also the character set stripped
by `String.prototype.trim`). -/
def isJsWhitespace (c : Char) : Bool :=
  c = ' ' || c = '\t' || c = '\n' || c = '\r' ||
  c = Char.ofNat 11 || c = Char.ofNat 12 || c = Char.ofNat 160 ||
  c = Char.ofNat 0x1680 || (0x2000 ≤ c.toNat && c.toNat ≤ 0x200A) ||
  c = Char.ofNat 0x2028 || c = Char.ofNat 0x2029 || c = Char.ofNat 0x202F ||
  c = Char.ofNat 0x205F || c = Char.ofNat 0x3000 || c = Char.ofNat 0xFEFF

/-- `String.prototype.trim`. -/
def jsTrim (s : Str) : Str :=
  ((s.dropWhile isJsWhitespace).reverse.dropWhile isJsWhitespace).reverse

/-- `/^\d+([.,]\d+)?/.test(trimmed)`.  As a `test`, the optional group and
the extra digits of `\d+` can never cause failure, so the regex succeeds
exactly when the string starts with a digit. -/
def startsWithNumber (s : Str) : Bool :=
  match s with
  | [] => false
  | c :: _ => c.isDigit

/-- Greedily consume the `(?:,\d{3})+` repetitions at the front of `s`:
returns the number of `,ddd` groups consumed and the rest.  (`{3}` is an
exact count, so each repetition is rigid; trailing digits after a group
make the whole regex fail no matter how many repetitions are kept, hence
maximal munch is faithful.) -/
def commaGroups : Str → Nat × Str
  | ',' :: d1 :: d2 :: d3 :: rest =>
    if d1.isDigit && d2.isDigit && d3.isDigit then
      let (n, r) := commaGroups rest
      (n + 1, r)
    else (0, ',' :: d1 :: d2 :: d3 :: rest)
  | s => (0, s)

/-- Match the tail `(?:\.\d+)?\s*$` of the pure-number regex.  If the
string starts with `.` the optional group must consume `.\d+` (a leading
`.` can never satisfy `\s*$`), otherwise the whole rest must be
whitespace. -/
def fracThenSpaces : Str → Bool
  | '.' :: rest =>
    !(rest.takeWhile Char.isDigit).isEmpty &&
      (rest.dropWhile Char.isDigit).all isJsWhitespace
  | s => s.all isJsWhitespace

/-- `/^(?:\d{1,3}(?:,\d{3})+|\d+)(?:\.\d+)?\s*$/.test(trimmed)`. -/
def isPureNumber (s : Str) : Bool :=
  let ds := s.takeWhile Char.isDigit
  let rest := s.dropWhile Char.isDigit
  let alt1 :=
    !ds.isEmpty && ds.length ≤ 3 &&
      (let (n, r2) := commaGroups rest
       1 ≤ n && fracThenSpaces r2)
  let alt2 := !ds.isEmpty && fracThenSpaces rest
  alt1 || alt2

/-- JavaScript `\w` (the word characters used by the `\b` boundary):
ASCII letters, digits and underscore. -/
def isWordChar (c : Char) : Bool :=
  c.isAlpha || c.isDigit || c = '_'

/-- Case-insensitive match of the word `w` (given in lowercase) at the
head of `s`, followed by a `\b` boundary. -/
def matchWordAt : Str → Str → Bool
  | [], [] => true
  | [], c :: _ => !isWordChar c
  | _ :: _, [] => false
  | w :: ws, c :: cs => (c.toLower = w) && matchWordAt ws cs

def currencyWords : List Str :=
  ["and".toList, "or".toList, "to".toList, "per".toList, "each".toList]

/-- Scan for `\b(?:and|or|to|per|each)\b` (case-insensitive): at each
position where the previous character is not a word character (so `\b`
holds, the listed words all starting with a letter), try every word. -/
def scanForWords : Bool → Str → Bool
  | _, [] => false
  | prevIsWord, c :: cs =>
    (!prevIsWord && currencyWords.any (fun w => matchWordAt w (c :: cs))) ||
      scanForWords (isWordChar c) cs

/-- `/\b(?:and|or|to|per|each)\b/i.test(trimmed)`. -/
def hasRangeOrCurrencyWords (s : Str) : Bool :=
  scanForWords false s

/-- `/^\d+([.,]\d+)?\s+[a-zA-Z]+/.test(trimmed)`: a maximal digit run,
then optionally `.`/`,` followed by a maximal digit run, then at least
one whitespace character, then an ASCII letter.  (Backtracking cannot
rescue a failed continuation: giving digits back to `\d+` puts a digit
where `\s` is required, and skipping a present `[.,]\d+` group puts `.`
or `,` there.) -/
def hasEnglishWordsAfterNumber (s : Str) : Bool :=
  let ds := s.takeWhile Char.isDigit
  let rest := s.dropWhile Char.isDigit
  !ds.isEmpty &&
    (let rest2 :=
      match rest with
      | c :: r =>
        if (c = '.' || c = ',') && !(r.takeWhile Char.isDigit).isEmpty then
          r.dropWhile Char.isDigit
        else rest
      | [] => rest
     let ws := rest2.takeWhile isJsWhitespace
     let r3 := rest2.dropWhile isJsWhitespace
     !ws.isEmpty &&
       match r3 with
       | c :: _ => c.isAlpha
       | [] => false)

/-- The character class `[\d\s.,+\-*\/=^_(){}\\a-zA-Z]` of characters the
heuristic considers plausible LaTeX tokens. -/
def isLatexTokenChar (c : Char) : Bool :=
  c.isDigit || isJsWhitespace c || c.isAlpha ||
  c = '.' || c = ',' || c = '+' || c = '-' || c = '*' || c = '/' ||
  c = '=' || c = '^' || c = '_' || c = '(' || c = ')' ||
  c = '{' || c = '}' || c = '\\'

/-- `/[^\d\s.,+\-*\/=^_(){}\\a-zA-Z]/.test(trimmed)`. -/
def hasNonLatexToken (s : Str) : Bool :=
  s.any (fun c => !isLatexTokenChar c)

/-- The guard of the `return match` branch of the inline-math replacement
callback: `isPureNumber || (startsWithNumber && (hasRangeOrCurrencyWords
|| hasEnglishWordsAfterNumber || hasNonLatexToken))`. -/
def classifiedAsPlainText (trimmed : Str) : Bool :=
  isPureNumber trimmed ||
    (startsWithNumber trimmed &&
      (hasRangeOrCurrencyWords trimmed || hasEnglishWordsAfterNumber trimmed ||
        hasNonLatexToken trimmed))

/-- The inert block-math marker element emitted for an escaped latex
payload. -/
def blockMathMarker (escaped : Str) : Str :=
  ("<div data-type=\"block-math\" data-latex=\"".toList) ++ escaped ++
    ("\"></div>".toList)

/-- The inert inline-math marker element emitted for an escaped latex
payload. -/
def inlineMathMarker (escaped : Str) : Str :=
  ("<span data-type=\"inline-math\" data-latex=\"".toList) ++ escaped ++
    ("\"></span>".toList)

/-- The replacement callback of the `$$...$$` pass applied to the capture
`latex`. -/
def blockMathReplacement (latex : Str) : Str :=
  blockMathMarker (escapeHtmlAttr (jsTrim latex))

/-- The replacement callback of the `$...$` pass applied to the whole
match `matchStr` and the capture `latex`. -/
def inlineMathReplacement (matchStr latex : Str) : Str :=
  if classifiedAsPlainText (jsTrim latex) then matchStr
  else inlineMathMarker (escapeHtmlAttr (jsTrim latex))

/-- Boolean prefix test (the anchored-at-a-position match attempt a
regex engine performs). -/
def isPre : Str → Str → Bool
  | [], _ => true
  | _ :: _, [] => false
  | a :: as, b :: bs => (a == b) && isPre as bs

/-- Split `s` at the first occurrence of `pat`: `splitFirst pat s = some
(pre, post)` when `s = pre ++ pat ++ post` with `pre` shortest, `none`
when `pat` does not occur (the search a lazy `[\s\S]*?` performs for the
closing delimiter). -/
def splitFirst (pat : Str) : Str → Option (Str × Str)
  | [] => none
  | c :: rest =>
    if isPre pat (c :: rest) then some ([], (c :: rest).drop pat.length)
    else
      match splitFirst pat rest with
      | some (pre, post) => some (c :: pre, post)
      | none => none

def tildeFence : Str := "~~~".toList

def dollarDollar : Str := "$$".toList

/-- The `/~~~[\s\S]*?~~~/g` pass: each match (an opening `~~~`, a lazy
interior, the earliest closing `~~~`) is pushed onto the placeholder
side-table and replaced by its sentinel; on failure the scanner advances
one character, as the JavaScript engine does. -/
def replaceTildesGo (fuel : Nat) (ps : List Str) (s : Str) : List Str × Str :=
  match fuel with
  | 0 => (ps, s)
  | fuel + 1 =>
    match s with
    | [] => (ps, [])
    | c :: rest =>
      if isPre tildeFence (c :: rest) then
        match splitFirst tildeFence ((c :: rest).drop 3) with
        | some (interior, after) =>
          let raw := tildeFence ++ interior ++ tildeFence
          let (ps2, out) := replaceTildesGo fuel (ps ++ [raw]) after
          (ps2, sentinel ps.length ++ out)
        | none =>
          let (ps2, out) := replaceTildesGo fuel ps rest
          (ps2, c :: out)
      else
        let (ps2, out) := replaceTildesGo fuel ps rest
        (ps2, c :: out)

/-- Length of the backtick run at the head of `s`. -/
def btRun : Str → Nat
  | [] => 0
  | c :: rest => if c = backquoteChar then btRun rest + 1 else 0

/-- The backtracking search of `/(`+)[\s\S]*?\1/` at a position whose
maximal backtick run has length `m`: try the greedy opening run first
(`k = m`), looking for the earliest later occurrence of a closing run of
the same length, and shrink the opening run on failure.  Returns the
whole matched text and the rest after the match. -/
def tryOpenTick : Nat → Str → Option (Str × Str)
  | 0, _ => none
  | k + 1, s =>
    match splitFirst (List.replicate (k + 1) backquoteChar) (s.drop (k + 1)) with
    | some (interior, after) =>
      some (List.replicate (k + 1) backquoteChar ++ interior ++
        List.replicate (k + 1) backquoteChar, after)
    | none => tryOpenTick k s

/-- The `` /(`+)[\s\S]*?\1/g `` pass over the output of the tilde pass. -/
def replaceTicksGo (fuel : Nat) (ps : List Str) (s : Str) : List Str × Str :=
  match fuel with
  | 0 => (ps, s)
  | fuel + 1 =>
    match s with
    | [] => (ps, [])
    | c :: rest =>
      if c = backquoteChar then
        match tryOpenTick (btRun (c :: rest)) (c :: rest) with
        | some (raw, after) =>
          let (ps2, out) := replaceTicksGo fuel (ps ++ [raw]) after
          (ps2, sentinel ps.length ++ out)
        | none =>
          let (ps2, out) := replaceTicksGo fuel ps rest
          (ps2, c :: out)
      else
        let (ps2, out) := replaceTicksGo fuel ps rest
        (ps2, c :: out)

/-- The `/\$\$([\s\S]*?)\$\$/g` pass: the capture is the lazy interior up
to the earliest closing `$$`; the match is replaced by the block-math
marker carrying the trimmed, escaped capture. -/
def blockMathGo (fuel : Nat) (s : Str) : Str :=
  match fuel with
  | 0 => s
  | fuel + 1 =>
    match s with
    | [] => []
    | c :: rest =>
      if isPre dollarDollar (c :: rest) then
        match splitFirst dollarDollar ((c :: rest).drop 2) with
        | some (latex, after) => blockMathReplacement latex ++ blockMathGo fuel after
        | none => c :: blockMathGo fuel rest
      else c :: blockMathGo fuel rest

/-- Interior characters of an inline-math candidate: `[^$\n]`. -/
def inlineBody (c : Char) : Bool :=
  !(c = '$' || c = '\n')

/-- The `/\$([^$\n]+?)\$/g` pass.  Since the interior class excludes `$`,
a match starting at a `$` is forced: the capture runs to the next `$`,
provided it is non-empty and no newline intervenes; otherwise the engine
advances one character. -/
def inlineMathGo (fuel : Nat) (s : Str) : Str :=
  match fuel with
  | 0 => s
  | fuel + 1 =>
    match s with
    | [] => []
    | c :: rest =>
      if c = '$' then
        let body := rest.takeWhile inlineBody
        match rest.dropWhile inlineBody with
        | d :: after =>
          if d = '$' && !body.isEmpty then
            inlineMathReplacement ('$' :: (body ++ ['$'])) body ++
              inlineMathGo fuel after
          else c :: inlineMathGo fuel rest
        | [] => c :: inlineMathGo fuel rest
      else c :: inlineMathGo fuel rest

/-- `String.prototype.replaceAll` with a plain-string pattern:
left-to-right, non-overlapping, the replacement is not rescanned. -/
def replaceAllGo (fuel : Nat) (pat repl : Str) (s : Str) : Str :=
  match fuel with
  | 0 => s
  | fuel + 1 =>
    match s with
    | [] => []
    | c :: rest =>
      if isPre pat (c :: rest) then
        repl ++ replaceAllGo fuel pat repl ((c :: rest).drop pat.length)
      else c :: replaceAllGo fuel pat repl rest

/-- The restore loop: `placeholders.forEach((value, idx) => restored =
restored.replaceAll(sentinel idx, value))`, with `i` the index of the
first remaining placeholder. -/
def restoreGo : Nat → List Str → Str → Str
  | _, [], s => s
  | i, v :: vs, s => restoreGo (i + 1) vs (replaceAllGo s.length (sentinel i) v s)

/-- Decoder of the four HTML entities emitted by `escapeHtmlAttr`,
with the ampersand entity decoded last (so `&amp;quot;` decodes to the
literal text `&quot;`, not to `"`): sequential `replaceAll` passes for
`&quot;`, `&lt;`, `&gt;`, then `&amp;`. -/
def unQuotPass (s : Str) : Str :=
  replaceAllGo s.length ("&quot;".toList) ("\"".toList) s

def unLtPass (s : Str) : Str :=
  replaceAllGo s.length ("&lt;".toList) ("<".toList) s

def unGtPass (s : Str) : Str :=
  replaceAllGo s.length ("&gt;".toList) (">".toList) s

def unAmpPass (s : Str) : Str :=
  replaceAllGo s.length ("&amp;".toList) ("&".toList) s

def unescapeHtmlAttr (s : Str) : Str :=
  unAmpPass (unGtPass (unLtPass (unQuotPass s)))

/-- Per-character block image of `escapeHtmlAttr` (the four replacement
passes compose into one character-wise flat map because every
replacement string avoids the patterns of the later passes). -/
def encStage1 (c : Char) : Str :=
  if c = '&' then "&amp;".toList
  else if c = '"' then "&quot;".toList
  else if c = '<' then "&lt;".toList
  else if c = '>' then "&gt;".toList
  else [c]

/-- Image of a character after the `&quot;` pass of the decoder. -/
def encStage2 (c : Char) : Str :=
  if c = '&' then "&amp;".toList
  else if c = '<' then "&lt;".toList
  else if c = '>' then "&gt;".toList
  else [c]

/-- Image of a character after the `&lt;` pass of the decoder. -/
def encStage3 (c : Char) : Str :=
  if c = '&' then "&amp;".toList
  else if c = '>' then "&gt;".toList
  else [c]

/-- Image of a character after the `&gt;` pass of the decoder. -/
def encStage4 (c : Char) : Str :=
  if c = '&' then "&amp;".toList
  else [c]

/-- Is there a mismatch between `pat` and `v` within their common
length?  If so, `pat` cannot match at the start of `v ++ t` for any
`t`. -/
def zipMismatch (pat v : Str) : Bool :=
  (List.zip pat v).any (fun pc => !(pc.1 == pc.2))

/-- A decomposition of a working string of the preprocessor into raw
characters and whole sentinel tokens. -/
inductive Chunk where
  | raw (c : Char)
  | sent (i : Nat)
deriving DecidableEq

def renderChunks : List Chunk → Str
  | [] => []
  | Chunk.raw c :: t => c :: renderChunks t
  | Chunk.sent i :: t => sentinel i ++ renderChunks t

/-- The maximal raw-character run at the head of a chunk list. -/
def rawRun : List Chunk → Str
  | Chunk.raw c :: t => c :: rawRun t
  | _ => []

/-- The chunk list after the maximal raw run. -/
def afterRun : List Chunk → List Chunk
  | Chunk.raw _ :: t => afterRun t
  | t => t

/-- Replace every `sent i` chunk by the raw characters of `v` (the
chunk-level effect of one restore substitution). -/
def substSent (i : Nat) (v : Str) : List Chunk → List Chunk
  | [] => []
  | Chunk.raw c :: t => Chunk.raw c :: substSent i v t
  | Chunk.sent j :: t =>
    if j = i then v.map Chunk.raw ++ substSent i v t
    else Chunk.sent j :: substSent i v t

/-- The two protection passes of `preprocessMathInMarkdown`: tilde-fenced
blocks first, then backtick spans, accumulating the placeholder
side-table. -/
def protectPhase (markdown : Str) : List Str × Str :=
  let (ps1, r1) := replaceTildesGo markdown.length [] markdown
  replaceTicksGo r1.length ps1 r1

/-- `preprocessMathInMarkdown` from the source: protect code regions,
convert block math, convert inline math, restore the protected
regions. -/
def preprocessMathInMarkdown (markdown : Str) : Str :=
  let (ps, r2) := protectPhase markdown
  let r3 := blockMathGo r2.length r2
  let r4 := inlineMathGo r3.length r3
  restoreGo 0 ps r4

/-- Does `pat` occur as a contiguous substring of `s`?  (Executable
companion of `List.IsInfix`.) -/
def containsStr (pat s : Str) : Bool :=
  (splitFirst pat s).isSome

/-- Modelled from the spec: the node vocabulary of the tree-to-text
serializer `jsonContentToMarkdown`, whose implementation is not among
the provided sources (only its unit tests are).  The claims only
serialize math leaves, text leaves and unknown nodes under a root, so
only those node kinds are modelled, following spec sections 3 and 4.2. -/
inductive MdNode where
  | textNode (s : Str)
  | inlineMathNode (latex : Option Str)
  | blockMathNode (latex : Option Str)
  | otherNode (ty : Str)
deriving DecidableEq

/-- Modelled from the spec: a document root, `type: doc` carrying an
optional child list (spec section 3). -/
structure MdRoot where
  rootType : Str
  content : Option (List MdNode)
deriving DecidableEq

/-- Modelled from the spec (section 4.2): serialization of a single
node.  `inlineMath{latex}` emits `$latex$` and `blockMath{latex}` emits
a `$$`-delimited block; a math node whose latex is empty or whitespace
contributes nothing; a text leaf emits its text; unknown node types are
skipped silently. -/
def serializeNode : MdNode → Str
  | .textNode s => s
  | .inlineMathNode none => []
  | .inlineMathNode (some latex) =>
    if (jsTrim latex).isEmpty then [] else '$' :: (latex ++ ['$'])
  | .blockMathNode none => []
  | .blockMathNode (some latex) =>
    if (jsTrim latex).isEmpty then []
    else dollarDollar ++ '\n' :: (latex ++ '\n' :: dollarDollar)
  | .otherNode _ => []

/-- Modelled from the spec (section 4.2): `jsonContentToMarkdown`
returns the empty string if `root.type` is not `doc` or `root.content`
is absent or empty, and otherwise emits the serializations of the
children in order (block separation elided: the claims only serialize
single-block documents). -/
def jsonContentToMarkdown (root : MdRoot) : Str :=
  if root.rootType = "doc".toList then
    match root.content with
    | some (n :: ns) => (n :: ns).flatMap serializeNode
    | _ => []
  else []

end FlareStack

namespace FlareStack

/-! ## C8: empty serialization for non-doc or contentless roots -/

/-- C8: for every node `root`, `serialize(root)` returns the empty
string whenever `root.type` is not `doc` or `root.content` is absent or
empty; the case is handled by an ordinary branch, not an error (the
function is total). -/
theorem serialize_empty_on_bad_root (root : MdRoot)
    (h : root.rootType ≠ "doc".toList ∨ root.content = none ∨
      root.content = some []) :
    jsonContentToMarkdown root = [] := by
  unfold jsonContentToMarkdown
  rcases h with h | h | h
  · rw [if_neg h]
  · rw [h]
    split <;> rfl
  · rw [h]
    split <;> rfl

/-- Witness for C8 at a concrete non-doc root. -/
theorem serialize_empty_on_bad_root_witness :
    jsonContentToMarkdown ⟨"paragraph".toList, none⟩ = [] :=
  serialize_empty_on_bad_root ⟨"paragraph".toList, none⟩ (Or.inl (by decide))

/-! ## C3: currency text is not converted -/

/-- C3: preprocessing `"I have $5 and $10."` leaves the text unchanged:
no inline-math (or block-math) marker element is emitted — so the parsed
tree contains no `inlineMath` node — and `$5` and `$10` survive as plain
text. -/
theorem currency_not_converted :
    preprocessMathInMarkdown ("I have $5 and $10.".toList) =
      "I have $5 and $10.".toList ∧
    containsStr ("inline-math".toList)
      (preprocessMathInMarkdown ("I have $5 and $10.".toList)) = false ∧
    containsStr ("block-math".toList)
      (preprocessMathInMarkdown ("I have $5 and $10.".toList)) = false ∧
    containsStr ("$5".toList)
      (preprocessMathInMarkdown ("I have $5 and $10.".toList)) = true ∧
    containsStr ("$10".toList)
      (preprocessMathInMarkdown ("I have $5 and $10.".toList)) = true := by
  decide

/-! ## C4: math-like spans inside code are protected -/

theorem takeWhile_append_of_all {p : Char → Bool} {u : Str} (v : Str)
    (h : ∀ c ∈ u, p c = true) :
    (u ++ v).takeWhile p = u ++ v.takeWhile p := by
  induction u with
  | nil => rfl
  | cons c cs ih =>
    simp only [List.cons_append, List.takeWhile_cons,
      h c (List.mem_cons_self c cs), if_true]
    rw [ih (fun d hd => h d (List.mem_cons_of_mem c hd))]

theorem dropWhile_append_of_all {p : Char → Bool} {u : Str} (v : Str)
    (h : ∀ c ∈ u, p c = true) :
    (u ++ v).dropWhile p = v.dropWhile p := by
  induction u with
  | nil => rfl
  | cons c cs ih =>
    simp only [List.cons_append, List.dropWhile_cons,
      h c (List.mem_cons_self c cs), if_true]
    exact ih (fun d hd => h d (List.mem_cons_of_mem c hd))

/-! ## C2: the inline-math classifier -/

/-- The inline pass applied to a single well-formed candidate
`$interior$` performs exactly one match covering the whole string and
returns the replacement callback's answer. -/
theorem inlineMathGo_candidate (interior : Str) (f : Nat)
    (hne : interior ≠ []) (hd : '$' ∉ interior) (hn : '\n' ∉ interior) :
    inlineMathGo (f + 1) ('$' :: (interior ++ ['$'])) =
      inlineMathReplacement ('$' :: (interior ++ ['$'])) interior := by
  have hb : ∀ c ∈ interior, inlineBody c = true := by
    intro c hc
    have h1 : c ≠ '$' := fun h => hd (h ▸ hc)
    have h2 : c ≠ '\n' := fun h => hn (h ▸ hc)
    simp [inlineBody, h1, h2]
  have ht : (interior ++ ['$']).takeWhile inlineBody = interior := by
    rw [takeWhile_append_of_all _ hb]
    simp [List.takeWhile_cons, inlineBody]
  have hw : (interior ++ ['$']).dropWhile inlineBody = ['$'] := by
    rw [dropWhile_append_of_all _ hb]
    simp [List.dropWhile_cons, inlineBody]
  have hemp : interior.isEmpty = false := by
    cases interior with
    | nil => exact absurd rfl hne
    | cons a l => rfl
  unfold inlineMathGo
  simp only [if_pos rfl, ht, hw, hemp]
  have : inlineMathGo f [] = [] := by cases f <;> rfl
  simp [this]

/-- C2: an inline candidate `$...$` (non-empty interior without literal
`$` or newline) is left unchanged by the inline pass exactly when, for
the trimmed interior, `isPureNumber` holds or `startsWithNumber` holds
together with one of `hasRangeOrCurrencyWords`,
`hasEnglishWordsAfterNumber`, `hasNonLatexToken`; in every other case
the match is replaced by the inert inline marker element carrying the
trimmed, attribute-escaped interior. -/
theorem inline_candidate_classification (interior : Str)
    (hne : interior ≠ []) (hd : '$' ∉ interior) (hn : '\n' ∉ interior) :
    (inlineMathGo ('$' :: (interior ++ ['$'])).length
        ('$' :: (interior ++ ['$'])) = '$' :: (interior ++ ['$']) ↔
      (isPureNumber (jsTrim interior) = true ∨
        (startsWithNumber (jsTrim interior) = true ∧
          (hasRangeOrCurrencyWords (jsTrim interior) = true ∨
            hasEnglishWordsAfterNumber (jsTrim interior) = true ∨
            hasNonLatexToken (jsTrim interior) = true)))) ∧
    (¬ (isPureNumber (jsTrim interior) = true ∨
        (startsWithNumber (jsTrim interior) = true ∧
          (hasRangeOrCurrencyWords (jsTrim interior) = true ∨
            hasEnglishWordsAfterNumber (jsTrim interior) = true ∨
            hasNonLatexToken (jsTrim interior) = true))) →
      inlineMathGo ('$' :: (interior ++ ['$'])).length
        ('$' :: (interior ++ ['$'])) =
        inlineMathMarker (escapeHtmlAttr (jsTrim interior))) := by
  have hlen : ('$' :: (interior ++ ['$'])).length = (interior.length + 1) + 1 := by
    simp
  rw [hlen, inlineMathGo_candidate interior _ hne hd hn]
  have hiff : classifiedAsPlainText (jsTrim interior) = true ↔
      (isPureNumber (jsTrim interior) = true ∨
        (startsWithNumber (jsTrim interior) = true ∧
          (hasRangeOrCurrencyWords (jsTrim interior) = true ∨
            hasEnglishWordsAfterNumber (jsTrim interior) = true ∨
            hasNonLatexToken (jsTrim interior) = true))) := by
    simp only [classifiedAsPlainText, Bool.or_eq_true, Bool.and_eq_true]
    tauto
  have hmark : inlineMathMarker (escapeHtmlAttr (jsTrim interior)) ≠
      '$' :: (interior ++ ['$']) := by
    intro h
    rw [inlineMathMarker,
      show ("<span data-type=\"inline-math\" data-latex=\"".toList) =
        '<' :: ("span data-type=\"inline-math\" data-latex=\"".toList) from rfl] at h
    simp only [List.cons_append] at h
    injection h with h1 _
    exact absurd h1 (by decide)
  unfold inlineMathReplacement
  by_cases hc : classifiedAsPlainText (jsTrim interior) = true
  · rw [if_pos hc]
    exact ⟨Iff.intro (fun _ => hiff.mp hc) (fun _ => rfl),
      fun hr => absurd (hiff.mp hc) hr⟩
  · rw [if_neg hc]
    refine ⟨⟨fun h => absurd h hmark, fun hr => absurd (hiff.mpr hr) hc⟩,
      fun _ => rfl⟩

/-- Witness for C2: the candidate `$x^2$` is classified as math and
replaced by the marker element. -/
theorem inline_candidate_classification_witness :
    inlineMathGo ('$' :: ("x^2".toList ++ ['$'])).length
        ('$' :: ("x^2".toList ++ ['$'])) =
      inlineMathMarker (escapeHtmlAttr (jsTrim ("x^2".toList))) :=
  (inline_candidate_classification ("x^2".toList) (by decide) (by decide)
    (by decide)).2 (by decide)

/-! ## Scanner stepping lemmas

Every scanner walks left to right; on a position that cannot start a
match it emits one character and recurses with one unit of fuel less.
The skip lemmas below let a proof step over a trigger-free prefix with
synchronised fuel. -/

theorem isPre_cons_false {a c : Char} (pat t : Str) (h : c ≠ a) :
    isPre (a :: pat) (c :: t) = false := by
  simp [isPre, Ne.symm h]

theorem isPre_self_append (pat t : Str) :
    isPre pat (pat ++ t) = true := by
  induction pat with
  | nil => rfl
  | cons a as ih => simp [isPre, ih]

theorem isPre_true_iff {pat s : Str} :
    isPre pat s = true ↔ pat <+: s := by
  induction pat generalizing s with
  | nil => simp [isPre, List.nil_prefix]
  | cons a as ih =>
    cases s with
    | nil => simp [isPre]
    | cons b bs =>
      simp only [isPre, Bool.and_eq_true, beq_iff_eq, ih,
        List.cons_prefix_cons]

theorem splitFirst_nil (pat : Str) : splitFirst pat [] = none := rfl

theorem blockMathGo_nil (f : Nat) : blockMathGo f [] = [] := by
  cases f <;> rfl

theorem inlineMathGo_nil (f : Nat) : inlineMathGo f [] = [] := by
  cases f <;> rfl

theorem replaceTildesGo_nil (f : Nat) (ps : List Str) :
    replaceTildesGo f ps [] = (ps, []) := by
  cases f <;> rfl

theorem replaceTicksGo_nil (f : Nat) (ps : List Str) :
    replaceTicksGo f ps [] = (ps, []) := by
  cases f <;> rfl

theorem replaceAllGo_nil (f : Nat) (pat repl : Str) :
    replaceAllGo f pat repl [] = [] := by
  cases f <;> rfl

theorem blockMathGo_succ (f : Nat) (c : Char) (rest : Str) :
    blockMathGo (f + 1) (c :: rest) =
      if isPre dollarDollar (c :: rest) then
        match splitFirst dollarDollar ((c :: rest).drop 2) with
        | some (latex, after) => blockMathReplacement latex ++ blockMathGo f after
        | none => c :: blockMathGo f rest
      else c :: blockMathGo f rest := rfl

theorem inlineMathGo_succ (f : Nat) (c : Char) (rest : Str) :
    inlineMathGo (f + 1) (c :: rest) =
      if c = '$' then
        let body := rest.takeWhile inlineBody
        match rest.dropWhile inlineBody with
        | d :: after =>
          if d = '$' && !body.isEmpty then
            inlineMathReplacement ('$' :: (body ++ ['$'])) body ++
              inlineMathGo f after
          else c :: inlineMathGo f rest
        | [] => c :: inlineMathGo f rest
      else c :: inlineMathGo f rest := rfl

theorem replaceTildesGo_succ (f : Nat) (ps : List Str) (c : Char) (rest : Str) :
    replaceTildesGo (f + 1) ps (c :: rest) =
      if isPre tildeFence (c :: rest) then
        match splitFirst tildeFence ((c :: rest).drop 3) with
        | some (interior, after) =>
          let raw := tildeFence ++ interior ++ tildeFence
          let (ps2, out) := replaceTildesGo f (ps ++ [raw]) after
          (ps2, sentinel ps.length ++ out)
        | none =>
          let (ps2, out) := replaceTildesGo f ps rest
          (ps2, c :: out)
      else
        let (ps2, out) := replaceTildesGo f ps rest
        (ps2, c :: out) := rfl

theorem replaceTicksGo_succ (f : Nat) (ps : List Str) (c : Char) (rest : Str) :
    replaceTicksGo (f + 1) ps (c :: rest) =
      if c = backquoteChar then
        match tryOpenTick (btRun (c :: rest)) (c :: rest) with
        | some (raw, after) =>
          let (ps2, out) := replaceTicksGo f (ps ++ [raw]) after
          (ps2, sentinel ps.length ++ out)
        | none =>
          let (ps2, out) := replaceTicksGo f ps rest
          (ps2, c :: out)
      else
        let (ps2, out) := replaceTicksGo f ps rest
        (ps2, c :: out) := rfl

theorem replaceAllGo_succ (f : Nat) (pat repl : Str) (c : Char) (rest : Str) :
    replaceAllGo (f + 1) pat repl (c :: rest) =
      if isPre pat (c :: rest) then
        repl ++ replaceAllGo f pat repl ((c :: rest).drop pat.length)
      else c :: replaceAllGo f pat repl rest := rfl

theorem blockMathGo_skip {u : Str} (t : Str) (f : Nat) (h : '$' ∉ u) :
    blockMathGo (u.length + f) (u ++ t) = u ++ blockMathGo f t := by
  induction u with
  | nil => simp
  | cons c cs ih =>
    have hc : c ≠ '$' := fun hh => h (hh ▸ List.mem_cons_self c cs)
    have hcs : '$' ∉ cs := fun hm => h (List.mem_cons_of_mem c hm)
    rw [show (c :: cs).length + f = (cs.length + f) + 1 from by simp; omega]
    rw [show (c :: cs) ++ t = c :: (cs ++ t) from rfl]
    rw [blockMathGo_succ, show dollarDollar = '$' :: ['$'] from rfl,
      isPre_cons_false _ _ hc]
    simp only [Bool.false_eq_true, if_false]
    rw [ih hcs]
    rfl

theorem inlineMathGo_skip {u : Str} (t : Str) (f : Nat) (h : '$' ∉ u) :
    inlineMathGo (u.length + f) (u ++ t) = u ++ inlineMathGo f t := by
  induction u with
  | nil => simp
  | cons c cs ih =>
    have hc : c ≠ '$' := fun hh => h (hh ▸ List.mem_cons_self c cs)
    have hcs : '$' ∉ cs := fun hm => h (List.mem_cons_of_mem c hm)
    rw [show (c :: cs).length + f = (cs.length + f) + 1 from by simp; omega]
    rw [show (c :: cs) ++ t = c :: (cs ++ t) from rfl]
    rw [inlineMathGo_succ]
    rw [if_neg hc, ih hcs]
    rfl

theorem replaceTildesGo_skip {u : Str} (t : Str) (f : Nat) (ps : List Str)
    (h : '~' ∉ u) :
    replaceTildesGo (u.length + f) ps (u ++ t) =
      ((replaceTildesGo f ps t).1, u ++ (replaceTildesGo f ps t).2) := by
  induction u with
  | nil => simp
  | cons c cs ih =>
    have hc : c ≠ '~' := fun hh => h (hh ▸ List.mem_cons_self c cs)
    have hcs : '~' ∉ cs := fun hm => h (List.mem_cons_of_mem c hm)
    rw [show (c :: cs).length + f = (cs.length + f) + 1 from by simp; omega]
    rw [show (c :: cs) ++ t = c :: (cs ++ t) from rfl]
    rw [replaceTildesGo_succ, show tildeFence = '~' :: ['~', '~'] from rfl,
      isPre_cons_false _ _ hc]
    simp only [Bool.false_eq_true, if_false]
    rw [ih hcs]
    rfl

theorem replaceTicksGo_skip {u : Str} (t : Str) (f : Nat) (ps : List Str)
    (h : backquoteChar ∉ u) :
    replaceTicksGo (u.length + f) ps (u ++ t) =
      ((replaceTicksGo f ps t).1, u ++ (replaceTicksGo f ps t).2) := by
  induction u with
  | nil => simp
  | cons c cs ih =>
    have hc : c ≠ backquoteChar := fun hh => h (hh ▸ List.mem_cons_self c cs)
    have hcs : backquoteChar ∉ cs := fun hm => h (List.mem_cons_of_mem c hm)
    rw [show (c :: cs).length + f = (cs.length + f) + 1 from by simp; omega]
    rw [show (c :: cs) ++ t = c :: (cs ++ t) from rfl]
    rw [replaceTicksGo_succ]
    rw [if_neg hc, ih hcs]
    rfl

theorem blockMathGo_id {s : Str} (h : '$' ∉ s) :
    blockMathGo s.length s = s := by
  have := blockMathGo_skip ([] : Str) 0 h
  simpa [blockMathGo_nil] using this

theorem inlineMathGo_id {s : Str} (h : '$' ∉ s) :
    inlineMathGo s.length s = s := by
  have := inlineMathGo_skip ([] : Str) 0 h
  simpa [inlineMathGo_nil] using this

theorem replaceTicksGo_id {s : Str} (ps : List Str) (h : backquoteChar ∉ s) :
    replaceTicksGo s.length ps s = (ps, s) := by
  have := replaceTicksGo_skip ([] : Str) 0 ps h
  simpa [replaceTicksGo_nil] using this

/-- Identity of the tilde pass under the weaker hypothesis that `~~~`
does not occur (lone tildes allowed). -/
theorem replaceTildesGo_id_of_no_fence {s : Str} (h : ¬ tildeFence <:+: s) :
    ∀ (f : Nat) (ps : List Str), replaceTildesGo f ps s = (ps, s) := by
  induction s with
  | nil => intro f ps; exact replaceTildesGo_nil f ps
  | cons c cs ih =>
    intro f ps
    cases f with
    | zero => rfl
    | succ f =>
      have hpre : isPre tildeFence (c :: cs) = false := by
        by_cases hp : isPre tildeFence (c :: cs) = true
        · exact absurd (isPre_true_iff.mp hp).isInfix h
        · exact Bool.eq_false_iff.mpr (fun he => hp he)
      have hcs : ¬ tildeFence <:+: cs := fun hin => h (List.infix_cons hin)
      rw [replaceTildesGo_succ, hpre]
      simp only [Bool.false_eq_true, if_false]
      rw [ih hcs f ps]

theorem replaceTildesGo_id {s : Str} (ps : List Str) (h : '~' ∉ s) :
    replaceTildesGo s.length ps s = (ps, s) := by
  have := replaceTildesGo_skip ([] : Str) 0 ps h
  simpa [replaceTildesGo_nil] using this

theorem not_infix_of_not_mem {c : Char} {pat s : Str} (hc : c ∈ pat)
    (h : c ∉ s) : ¬ pat <:+: s :=
  fun hin => h (hin.subset hc)

/-! ## C9: preprocessing is the identity on marker-free input -/

/-- C9 (implicit): on input with no `$`, no backtick and no `~~~`
sequence, `preprocessMathInMarkdown` returns its input unchanged. -/
theorem preprocess_id_on_math_free (s : Str) (h1 : '$' ∉ s)
    (h2 : backquoteChar ∉ s) (h3 : ¬ tildeFence <:+: s) :
    preprocessMathInMarkdown s = s := by
  have hA : protectPhase s = ([], s) := by
    unfold protectPhase
    rw [replaceTildesGo_id_of_no_fence h3 s.length []]
    exact replaceTicksGo_id [] h2
  unfold preprocessMathInMarkdown
  rw [hA]
  show restoreGo 0 []
    (inlineMathGo (blockMathGo s.length s).length (blockMathGo s.length s)) = s
  rw [blockMathGo_id h1, inlineMathGo_id h1]
  rfl

/-- Witness for C9. -/
theorem preprocess_id_on_math_free_witness :
    preprocessMathInMarkdown ("Just ~ plain **text**.".toList) =
      "Just ~ plain **text**.".toList :=
  preprocess_id_on_math_free ("Just ~ plain **text**.".toList) (by decide)
    (by decide) (by decide)

/-! ## C6: totality and unmatched delimiters -/

theorem jsTrim_eq_nil_of_all_ws {w : Str}
    (h : ∀ c ∈ w, isJsWhitespace c = true) : jsTrim w = [] := by
  unfold jsTrim
  rw [List.dropWhile_eq_nil_iff.mpr h]
  rfl

/-- C7 (amended): an inline candidate `$...$` whose non-empty interior
is all whitespace (no newline) is classified as math — not plain text —
and replaced by an inline marker element whose latex attribute is
empty. -/
theorem whitespace_interior_is_math (w : Str) (hne : w ≠ [])
    (hws : ∀ c ∈ w, isJsWhitespace c = true) (hnl : '
' ∉ w) :
    preprocessMathInMarkdown ('$' :: (w ++ ['$'])) = inlineMathMarker [] := by
  have hnot : ∀ (x : Char), isJsWhitespace x = false → x ∉ w := by
    intro x hx hm
    rw [hws x hm] at hx
    cases hx
  have hd : '$' ∉ w := hnot '$' (by decide)
  have htlw : '~' ∉ w := hnot '~' (by decide)
  have hbqw : backquoteChar ∉ w := hnot backquoteChar (by decide)
  set s : Str := '$' :: (w ++ ['$']) with hs
  have hmem : ∀ (c : Char), c ∉ w → c ≠ '$' → c ∉ s := by
    intro c hcw hcd hm
    rw [hs] at hm
    rcases List.mem_cons.mp hm with h | h
    · exact hcd h
    · rcases List.mem_append.mp h with h | h
      · exact hcw h
      · exact hcd (List.mem_singleton.mp h)
  have hA : protectPhase s = ([], s) := by
    unfold protectPhase
    rw [replaceTildesGo_id [] (hmem '~' htlw (by decide))]
    exact replaceTicksGo_id [] (hmem backquoteChar hbqw (by decide))
  have hlen : s.length = (w.length + 1) + 1 := by simp [hs]
  have hB : blockMathGo s.length s = s := by
    rw [hlen, hs, blockMathGo_succ]
    have hpre : isPre dollarDollar ('$' :: (w ++ ['$'])) = false := by
      cases w with
      | nil => exact absurd rfl hne
      | cons w0 w' =>
        have hw0 : w0 ≠ '$' :=
          fun hh => hd (hh ▸ List.mem_cons_self w0 w')
        simp only [dollarDollar, List.cons_append]
        simp [isPre]
        exact fun hh => hw0 hh.symm
    rw [hpre]
    simp only [Bool.false_eq_true, if_false]
    rw [show w.length + 1 = w.length + 1 from rfl, blockMathGo_skip _ _ hd]
    rw [show blockMathGo 1 ['$'] = ['$'] from by decide]
  have hC : inlineMathGo s.length s = inlineMathMarker [] := by
    rw [hlen, hs, inlineMathGo_candidate w _ hne hd hnl]
    unfold inlineMathReplacement
    rw [jsTrim_eq_nil_of_all_ws hws]
    rw [if_neg (by decide)]
    rfl
  unfold preprocessMathInMarkdown
  rw [hA]
  show restoreGo 0 []
    (inlineMathGo (blockMathGo s.length s).length (blockMathGo s.length s)) =
      inlineMathMarker []
  rw [hB, hC]
  rfl

/-- Counterexample for C7 as stated: the candidate `$ $` is not left
unchanged; an inline marker element is emitted. -/
theorem whitespace_interior_counterexample :
    preprocessMathInMarkdown ("$ $".toList) ≠ "$ $".toList ∧
    containsStr ("inline-math".toList)
      (preprocessMathInMarkdown ("$ $".toList)) = true := by
  decide

/-- Witness for C7 (amended) at the interior `" "`. -/
theorem whitespace_interior_is_math_witness :
    preprocessMathInMarkdown ('$' :: (" ".toList ++ ['$'])) =
      inlineMathMarker [] :=
  whitespace_interior_is_math (" ".toList) (by decide) (by decide) (by decide)

/-! ## C1: the math round trip -/

theorem replaceChar_cons (t : Char) (r : Str) (c : Char) (s : Str) :
    replaceChar t r (c :: s) =
      (if c = t then r else [c]) ++ replaceChar t r s := by
  simp [replaceChar]

theorem escapeHtmlAttr_cons (c : Char) (s : Str) :
    escapeHtmlAttr (c :: s) = encStage1 c ++ escapeHtmlAttr s := by
  by_cases h1 : c = '&'
  · subst h1
    simp [escapeHtmlAttr, replaceChar, encStage1]
  · by_cases h2 : c = '"'
    · subst h2
      simp [escapeHtmlAttr, replaceChar, encStage1]
    · by_cases h3 : c = '<'
      · subst h3
        simp [escapeHtmlAttr, replaceChar, encStage1]
      · by_cases h4 : c = '>'
        · subst h4
          simp [escapeHtmlAttr, replaceChar, encStage1]
        · simp [escapeHtmlAttr, replaceChar, encStage1, h1, h2, h3, h4]

theorem escapeHtmlAttr_eq_flatMap (s : Str) :
    escapeHtmlAttr s = s.flatMap encStage1 := by
  induction s with
  | nil => rfl
  | cons c cs ih => rw [escapeHtmlAttr_cons, List.flatMap_cons, ih]

theorem isPre_append_false_of_zipMismatch {pat v : Str}
    (h : zipMismatch pat v = true) :
    ∀ t, isPre pat (v ++ t) = false := by
  induction pat generalizing v with
  | nil => simp [zipMismatch] at h
  | cons p ps ih =>
    cases v with
    | nil => simp [zipMismatch] at h
    | cons w ws =>
      intro t
      rw [show (w :: ws) ++ t = w :: (ws ++ t) from rfl]
      unfold zipMismatch at h
      rw [List.zip_cons_cons, List.any_cons] at h
      by_cases hpw : p = w
      · subst hpw
        have h' : (ps.zip ws).any (fun pc => !(pc.1 == pc.2)) = true := by
          simpa using h
        have h2 := ih (v := ws) (by unfold zipMismatch; exact h') t
        simp [isPre, h2]
      · exact isPre_cons_false _ _ (fun hh => hpw hh.symm)

theorem replaceAllGo_step_match (f : Nat) (a : Char) (as repl t : Str) :
    replaceAllGo (f + 1) (a :: as) repl ((a :: as) ++ t) =
      repl ++ replaceAllGo f (a :: as) repl t := by
  rw [show ((a :: as) ++ t) = a :: (as ++ t) from rfl, replaceAllGo_succ]
  rw [show isPre (a :: as) (a :: (as ++ t)) = true from
    isPre_self_append (a :: as) t]
  rw [if_pos rfl]
  congr 1
  rw [show (a :: (as ++ t)) = (a :: as) ++ t from rfl]
  rw [List.drop_left]

theorem replaceAllGo_skip_block {u : Str} (pat repl t : Str) (f : Nat)
    (h : ∀ v, v <:+ u → v ≠ [] → isPre pat (v ++ t) = false) :
    replaceAllGo (u.length + f) pat repl (u ++ t) =
      u ++ replaceAllGo f pat repl t := by
  induction u with
  | nil => simp
  | cons c cs ih =>
    rw [show (c :: cs).length + f = (cs.length + f) + 1 from by simp; omega]
    rw [show (c :: cs) ++ t = c :: (cs ++ t) from rfl, replaceAllGo_succ]
    have hh : isPre pat (c :: (cs ++ t)) = false :=
      h (c :: cs) (List.suffix_refl _) (List.cons_ne_nil c cs)
    rw [hh]
    simp only [Bool.false_eq_true, if_false]
    rw [ih (fun v hv hvne => h v (hv.trans (List.suffix_cons c cs)) hvne)]
    rfl

/-- One decoding pass on a block image: the pass replaces exactly the
blocks equal to its pattern and leaves every other block intact. -/
theorem replaceAllGo_flatMap_decode (enc dec : Char → Str) (x : Char)
    (a : Char) (as : Str)
    (hx : enc x = a :: as) (hxd : dec x = [x])
    (hother : ∀ c, c ≠ x → dec c = enc c)
    (hsafe : ∀ c, c ≠ x → ∀ v, v <:+ enc c → v ≠ [] →
      ∀ t, isPre (a :: as) (v ++ t) = false) :
    ∀ (s : Str) (f : Nat),
      replaceAllGo ((s.flatMap enc).length + f) (a :: as) [x]
        (s.flatMap enc) = s.flatMap dec := by
  intro s
  induction s with
  | nil => intro f; exact replaceAllGo_nil _ _ _
  | cons c s' ih =>
    intro f
    by_cases hc : c = x
    · subst hc
      rw [List.flatMap_cons, hx]
      rw [show ((a :: as) ++ s'.flatMap enc).length + f =
        ((s'.flatMap enc).length + (as.length + f)) + 1 from by simp; omega]
      rw [replaceAllGo_step_match]
      rw [ih (as.length + f)]
      rw [List.flatMap_cons, hxd]
    · rw [List.flatMap_cons]
      rw [show (enc c ++ s'.flatMap enc).length + f =
        (enc c).length + ((s'.flatMap enc).length + f) from by simp; omega]
      rw [replaceAllGo_skip_block _ _ _ _
        (fun v hv hvne => hsafe c hc v hv hvne _)]
      rw [ih f, List.flatMap_cons, hother c hc]

theorem encStage1_safe : ∀ c, c ≠ '"' → ∀ v, v <:+ encStage1 c → v ≠ [] →
    ∀ t, isPre ("&quot;".toList) (v ++ t) = false := by
  intro c hc v hsuf hvne t
  unfold encStage1 at hsuf
  by_cases h1 : c = '&'
  · rw [if_pos h1] at hsuf
    have hall : ∀ w ∈ ("&amp;".toList).tails, w ≠ [] →
        zipMismatch ("&quot;".toList) w = true := by decide
    exact isPre_append_false_of_zipMismatch
      (hall v ((List.mem_tails _ _).mpr hsuf) hvne) t
  · rw [if_neg h1, if_neg hc] at hsuf
    by_cases h3 : c = '<'
    · rw [if_pos h3] at hsuf
      have hall : ∀ w ∈ ("&lt;".toList).tails, w ≠ [] →
          zipMismatch ("&quot;".toList) w = true := by decide
      exact isPre_append_false_of_zipMismatch
        (hall v ((List.mem_tails _ _).mpr hsuf) hvne) t
    · rw [if_neg h3] at hsuf
      by_cases h4 : c = '>'
      · rw [if_pos h4] at hsuf
        have hall : ∀ w ∈ ("&gt;".toList).tails, w ≠ [] →
            zipMismatch ("&quot;".toList) w = true := by decide
        exact isPre_append_false_of_zipMismatch
          (hall v ((List.mem_tails _ _).mpr hsuf) hvne) t
      · rw [if_neg h4] at hsuf
        have hv := (List.mem_tails _ _).mpr hsuf
        rw [show ([c].tails) = [[c], []] from rfl] at hv
        rcases List.mem_cons.mp hv with rfl | hv
        · rw [show ("&quot;".toList) = '&' :: ("quot;".toList) from rfl]
          exact isPre_cons_false _ _ (fun hh => h1 hh)
        · rw [List.mem_singleton] at hv
          exact absurd hv hvne

theorem encStage2_safe : ∀ c, c ≠ '<' → ∀ v, v <:+ encStage2 c → v ≠ [] →
    ∀ t, isPre ("&lt;".toList) (v ++ t) = false := by
  intro c hc v hsuf hvne t
  unfold encStage2 at hsuf
  by_cases h1 : c = '&'
  · rw [if_pos h1] at hsuf
    have hall : ∀ w ∈ ("&amp;".toList).tails, w ≠ [] →
        zipMismatch ("&lt;".toList) w = true := by decide
    exact isPre_append_false_of_zipMismatch
      (hall v ((List.mem_tails _ _).mpr hsuf) hvne) t
  · rw [if_neg h1, if_neg hc] at hsuf
    by_cases h4 : c = '>'
    · rw [if_pos h4] at hsuf
      have hall : ∀ w ∈ ("&gt;".toList).tails, w ≠ [] →
          zipMismatch ("&lt;".toList) w = true := by decide
      exact isPre_append_false_of_zipMismatch
        (hall v ((List.mem_tails _ _).mpr hsuf) hvne) t
    · rw [if_neg h4] at hsuf
      have hv := (List.mem_tails _ _).mpr hsuf
      rw [show ([c].tails) = [[c], []] from rfl] at hv
      rcases List.mem_cons.mp hv with rfl | hv
      · rw [show ("&lt;".toList) = '&' :: ("lt;".toList) from rfl]
        exact isPre_cons_false _ _ (fun hh => h1 hh)
      · rw [List.mem_singleton] at hv
        exact absurd hv hvne

theorem encStage3_safe : ∀ c, c ≠ '>' → ∀ v, v <:+ encStage3 c → v ≠ [] →
    ∀ t, isPre ("&gt;".toList) (v ++ t) = false := by
  intro c hc v hsuf hvne t
  unfold encStage3 at hsuf
  by_cases h1 : c = '&'
  · rw [if_pos h1] at hsuf
    have hall : ∀ w ∈ ("&amp;".toList).tails, w ≠ [] →
        zipMismatch ("&gt;".toList) w = true := by decide
    exact isPre_append_false_of_zipMismatch
      (hall v ((List.mem_tails _ _).mpr hsuf) hvne) t
  · rw [if_neg h1, if_neg hc] at hsuf
    have hv := (List.mem_tails _ _).mpr hsuf
    rw [show ([c].tails) = [[c], []] from rfl] at hv
    rcases List.mem_cons.mp hv with rfl | hv
    · rw [show ("&gt;".toList) = '&' :: ("gt;".toList) from rfl]
      exact isPre_cons_false _ _ (fun hh => h1 hh)
    · rw [List.mem_singleton] at hv
      exact absurd hv hvne

theorem encStage4_safe : ∀ c, c ≠ '&' → ∀ v, v <:+ encStage4 c → v ≠ [] →
    ∀ t, isPre ("&amp;".toList) (v ++ t) = false := by
  intro c hc v hsuf hvne t
  unfold encStage4 at hsuf
  rw [if_neg hc] at hsuf
  have hv := (List.mem_tails _ _).mpr hsuf
  rw [show ([c].tails) = [[c], []] from rfl] at hv
  rcases List.mem_cons.mp hv with rfl | hv
  · rw [show ("&amp;".toList) = '&' :: ("amp;".toList) from rfl]
    exact isPre_cons_false _ _ (fun hh => hc hh)
  · rw [List.mem_singleton] at hv
    exact absurd hv hvne

theorem flatMap_singleton_id (s : Str) :
    s.flatMap (fun c => [c]) = s := by
  induction s with
  | nil => rfl
  | cons c cs ih => rw [List.flatMap_cons, ih]; rfl

theorem unescape_escape (s : Str) :
    unescapeHtmlAttr (escapeHtmlAttr s) = s := by
  have h1 : ∀ (w : Str) (f : Nat),
      replaceAllGo ((w.flatMap encStage1).length + f) ("&quot;".toList)
        ("\"".toList) (w.flatMap encStage1) = w.flatMap encStage2 := by
    intro w f
    exact replaceAllGo_flatMap_decode encStage1 encStage2 '"' '&'
      ("quot;".toList) (by rfl) (by rfl)
      (fun c hc => by
        unfold encStage1 encStage2
        by_cases e1 : c = '&' <;> by_cases e3 : c = '<' <;>
          by_cases e4 : c = '>' <;> simp [e1, e3, e4, hc])
      encStage1_safe w f
  have h2 : ∀ (w : Str) (f : Nat),
      replaceAllGo ((w.flatMap encStage2).length + f) ("&lt;".toList)
        ("<".toList) (w.flatMap encStage2) = w.flatMap encStage3 := by
    intro w f
    exact replaceAllGo_flatMap_decode encStage2 encStage3 '<' '&'
      ("lt;".toList) (by rfl) (by rfl)
      (fun c hc => by
        unfold encStage2 encStage3
        by_cases e1 : c = '&' <;> by_cases e4 : c = '>' <;>
          simp [e1, e4, hc])
      encStage2_safe w f
  have h3 : ∀ (w : Str) (f : Nat),
      replaceAllGo ((w.flatMap encStage3).length + f) ("&gt;".toList)
        (">".toList) (w.flatMap encStage3) = w.flatMap encStage4 := by
    intro w f
    exact replaceAllGo_flatMap_decode encStage3 encStage4 '>' '&'
      ("gt;".toList) (by rfl) (by rfl)
      (fun c hc => by
        unfold encStage3 encStage4
        by_cases e1 : c = '&' <;> simp [e1, hc])
      encStage3_safe w f
  have h4 : ∀ (w : Str) (f : Nat),
      replaceAllGo ((w.flatMap encStage4).length + f) ("&amp;".toList)
        ("&".toList) (w.flatMap encStage4) = w.flatMap (fun c => [c]) := by
    intro w f
    exact replaceAllGo_flatMap_decode encStage4 (fun c => [c]) '&' '&'
      ("amp;".toList) (by rfl) (by rfl)
      (fun c hc => by unfold encStage4; simp [hc])
      encStage4_safe w f
  have e1 : unQuotPass (s.flatMap encStage1) = s.flatMap encStage2 := by
    unfold unQuotPass
    have := h1 s 0
    simpa using this
  have e2 : unLtPass (s.flatMap encStage2) = s.flatMap encStage3 := by
    unfold unLtPass
    have := h2 s 0
    simpa using this
  have e3 : unGtPass (s.flatMap encStage3) = s.flatMap encStage4 := by
    unfold unGtPass
    have := h3 s 0
    simpa using this
  have e4 : unAmpPass (s.flatMap encStage4) = s.flatMap (fun c => [c]) := by
    unfold unAmpPass
    have := h4 s 0
    simpa using this
  unfold unescapeHtmlAttr
  rw [escapeHtmlAttr_eq_flatMap, e1, e2, e3, e4]
  exact flatMap_singleton_id s

/-- C10 (implicit): `escapeHtmlAttr` (ampersand escaped first) is
injective, and decoding the four entities with the ampersand entity
last recovers exactly the original string; in particular the
`data-latex` payload `escapeHtmlAttr (jsTrim latex)` of every emitted
math marker decodes back to exactly the trimmed latex. -/
theorem escape_injective_and_decodable :
    (∀ s : Str, unescapeHtmlAttr (escapeHtmlAttr s) = s) ∧
    (∀ s t : Str, escapeHtmlAttr s = escapeHtmlAttr t → s = t) ∧
    (∀ latex : Str,
      unescapeHtmlAttr (escapeHtmlAttr (jsTrim latex)) = jsTrim latex) :=
  ⟨unescape_escape,
    fun s t h => by
      have hs := unescape_escape s
      rw [h, unescape_escape t] at hs
      exact hs.symm,
    fun latex => unescape_escape (jsTrim latex)⟩

/-- Witness for C10 on a concrete string exercising all four escaped
characters. -/
theorem escape_injective_and_decodable_witness :
    unescapeHtmlAttr (escapeHtmlAttr ("a&b\"<c>&amp;".toList)) =
      "a&b\"<c>&amp;".toList ∧
    "x&".toList = "x&".toList :=
  ⟨escape_injective_and_decodable.1 ("a&b\"<c>&amp;".toList),
    escape_injective_and_decodable.2.1 ("x&".toList) ("x&".toList) rfl⟩

/-! ## Decimal digits and sentinel tokens -/

theorem digitChar10_isDigit (k : Nat) : (digitChar10 k).isDigit = true := by
  unfold digitChar10
  split_ifs <;> decide

theorem digit_ne {c x : Char} (hx : x.isDigit = false)
    (h : c.isDigit = true) : c ≠ x := by
  intro hc
  rw [hc, hx] at h
  cases h

theorem digit_not_mem_body {c : Char} (h : c.isDigit = true) :
    c ∉ placeholderBody := by
  intro hm
  have hall : ∀ x ∈ placeholderBody, x.isDigit = false := by decide
  rw [hall c hm] at h
  cases h

theorem natDigitsAux_digits : ∀ (f n : Nat), ∀ c ∈ natDigitsAux f n,
    c.isDigit = true := by
  intro f
  induction f with
  | zero => intro n c hc; cases hc
  | succ f ih =>
    intro n c hc
    unfold natDigitsAux at hc
    by_cases hn : n = 0
    · rw [if_pos hn] at hc; cases hc
    · rw [if_neg hn] at hc
      rcases List.mem_append.mp hc with h | h
      · exact ih _ c h
      · rw [List.mem_singleton] at h
        rw [h]
        exact digitChar10_isDigit n

theorem natDigits_digits : ∀ (n : Nat), ∀ c ∈ natDigits n,
    c.isDigit = true := by
  intro n c hc
  unfold natDigits at hc
  by_cases hn : n = 0
  · rw [if_pos hn] at hc
    rw [List.mem_singleton] at hc
    rw [hc]; decide
  · rw [if_neg hn] at hc
    exact natDigitsAux_digits n n c hc

theorem natDigits_ne_nil (n : Nat) : natDigits n ≠ [] := by
  unfold natDigits
  by_cases hn : n = 0
  · rw [if_pos hn]; exact List.cons_ne_nil _ _
  · rw [if_neg hn]
    obtain ⟨m, rfl⟩ : ∃ m, n = m + 1 := ⟨n - 1, by omega⟩
    unfold natDigitsAux
    rw [if_neg hn]
    simp

theorem sentinel_chars {c : Char} {i : Nat} (h : c ∈ sentinel i) :
    c = nulChar ∨ c ∈ placeholderBody ∨ c.isDigit = true := by
  unfold sentinel at h
  rcases List.mem_cons.mp h with h | h
  · exact Or.inl h
  · rcases List.mem_append.mp h with h | h
    · rcases List.mem_append.mp h with h | h
      · exact Or.inr (Or.inl h)
      · exact Or.inr (Or.inr (natDigits_digits i c h))
    · rw [List.mem_singleton] at h
      exact Or.inl h

theorem backquote_not_mem_sentinel (i : Nat) :
    backquoteChar ∉ sentinel i := by
  intro h
  rcases sentinel_chars h with h | h | h
  · exact absurd h (by decide)
  · revert h; decide
  · exact absurd h (by decide)

theorem renderChunks_append (a b : List Chunk) :
    renderChunks (a ++ b) = renderChunks a ++ renderChunks b := by
  induction a with
  | nil => rfl
  | cons x t ih =>
    cases x with
    | raw c => simp [renderChunks, ih]
    | sent i => simp [renderChunks, ih]

theorem renderChunks_map_raw (v : Str) :
    renderChunks (v.map Chunk.raw) = v := by
  induction v with
  | nil => rfl
  | cons c t ih => simp [renderChunks, ih]

theorem chunks_eq_run_append (chs : List Chunk) :
    chs = (rawRun chs).map Chunk.raw ++ afterRun chs := by
  induction chs with
  | nil => rfl
  | cons x t ih =>
    cases x with
    | raw c =>
      show Chunk.raw c :: t = Chunk.raw c :: ((rawRun t).map Chunk.raw ++ afterRun t)
      rw [← ih]
    | sent i => rfl

theorem isPre_nil_left (s : Str) : isPre [] s = true := by
  cases s <;> rfl

theorem isPre_nil_right {x : Str} (h : isPre x [] = true) : x = [] := by
  cases x with
  | nil => rfl
  | cons a as => cases h

theorem isPre_rawRun_of_nulFree :
    ∀ (chs : List Chunk) (x : Str), nulChar ∉ x →
      isPre x (renderChunks chs) = true → isPre x (rawRun chs) = true := by
  intro chs
  induction chs with
  | nil =>
    intro x hx h
    rw [isPre_nil_right h]
    rfl
  | cons ch t ih =>
    cases ch with
    | raw c =>
      intro x hx h
      cases x with
      | nil => exact isPre_nil_left _
      | cons a x' =>
        rw [show renderChunks (Chunk.raw c :: t) = c :: renderChunks t from rfl] at h
        rw [show rawRun (Chunk.raw c :: t) = c :: rawRun t from rfl]
        rw [isPre, Bool.and_eq_true] at h
        obtain ⟨hac, hrest⟩ := h
        rw [isPre, hac]
        simpa using ih x' (fun hm => hx (List.mem_cons_of_mem a hm)) hrest
    | sent i =>
      intro x hx h
      cases x with
      | nil => exact isPre_nil_left _
      | cons a x' =>
        rw [show renderChunks (Chunk.sent i :: t) = sentinel i ++ renderChunks t
          from rfl] at h
        rw [show sentinel i ++ renderChunks t =
          nulChar :: ((placeholderBody ++ natDigits i ++ [nulChar]) ++
            renderChunks t) from by rw [sentinel]; simp] at h
        rw [isPre, Bool.and_eq_true] at h
        obtain ⟨hac, _⟩ := h
        rw [beq_iff_eq] at hac
        exact absurd (hac ▸ List.mem_cons_self a x') hx

theorem mem_sent_substSent {j i : Nat} {v : Str} :
    ∀ {chs : List Chunk}, Chunk.sent j ∈ substSent i v chs →
      j ≠ i ∧ Chunk.sent j ∈ chs := by
  intro chs
  induction chs with
  | nil => intro h; cases h
  | cons x t ih =>
    cases x with
    | raw d =>
      intro h
      rcases List.mem_cons.mp h with h | h
      · cases h
      · exact ⟨(ih h).1, List.mem_cons_of_mem _ (ih h).2⟩
    | sent m =>
      intro h
      by_cases hm : m = i
      · rw [substSent, if_pos hm] at h
        rcases List.mem_append.mp h with h | h
        · rcases List.mem_map.mp h with ⟨d, _, he⟩
          cases he
        · exact ⟨(ih h).1, List.mem_cons_of_mem _ (ih h).2⟩
      · rw [substSent, if_neg hm] at h
        rcases List.mem_cons.mp h with h | h
        · injection h with h
          exact ⟨h ▸ hm, h ▸ List.mem_cons_self _ _⟩
        · exact ⟨(ih h).1, List.mem_cons_of_mem _ (ih h).2⟩

theorem rawRun_prefix_render (chs : List Chunk) :
    rawRun chs <+: renderChunks chs := by
  conv_rhs => rw [chunks_eq_run_append chs]
  rw [renderChunks_append, renderChunks_map_raw]
  exact ⟨renderChunks (afterRun chs), rfl⟩

theorem prefix_append_cases {α : Type} : ∀ {x : List α} {u y : List α},
    u <+: x ++ y → u <+: x ∨ ∃ u2, u = x ++ u2 ∧ u2 <+: y := by
  intro x
  induction x with
  | nil => intro u y h; exact Or.inr ⟨u, rfl, h⟩
  | cons c x' ih =>
    intro u y h
    cases u with
    | nil => exact Or.inl List.nil_prefix
    | cons d u' =>
      rw [show (c :: x') ++ y = c :: (x' ++ y) from rfl] at h
      obtain ⟨hdc, htail⟩ := List.cons_prefix_cons.mp h
      subst hdc
      rcases ih htail with h | ⟨u2, rfl, h2⟩
      · exact Or.inl (List.cons_prefix_cons.mpr ⟨rfl, h⟩)
      · exact Or.inr ⟨u2, rfl, h2⟩

theorem infix_split {α : Type} : ∀ {x : List α} {u y : List α},
    u <:+: x ++ y → u <:+: x ∨ u <:+: y ∨
      ∃ u1 u2, u = u1 ++ u2 ∧ u1 ≠ [] ∧ u1 <:+ x ∧ u2 <+: y := by
  intro x
  induction x with
  | nil => intro u y h; exact Or.inr (Or.inl (by simpa using h))
  | cons c x' ih =>
    intro u y h
    rw [show (c :: x') ++ y = c :: (x' ++ y) from rfl] at h
    rcases List.infix_cons_iff.mp h with h | h
    · rw [show c :: (x' ++ y) = (c :: x') ++ y from rfl] at h
      rcases prefix_append_cases h with h | ⟨u2, rfl, h2⟩
      · exact Or.inl h.isInfix
      · by_cases hu2 : u2 = []
        · subst hu2
          exact Or.inl (by rw [List.append_nil])
        · exact Or.inr (Or.inr ⟨c :: x', u2, rfl, List.cons_ne_nil _ _,
            List.suffix_refl _, h2⟩)
    · rcases ih h with h | h | ⟨u1, u2, rfl, hne, hsuf, hpre⟩
      · exact Or.inl (List.infix_cons h)
      · exact Or.inr (Or.inl h)
      · exact Or.inr (Or.inr ⟨u1, u2, rfl, hne,
          hsuf.trans (List.suffix_cons _ _), hpre⟩)

/-- A NUL-free substring of a rendered chunk list that starts with a
backtick lies entirely inside the raw characters, hence (under the
raw-run invariant) inside the original input. -/
theorem bq_block_in_raw {s : Str} :
    ∀ (chs : List Chunk), (∀ t, t <:+ chs → rawRun t <:+: s) →
    ∀ u, u <:+: renderChunks chs → nulChar ∉ u →
      (∃ u', u = backquoteChar :: u') → u <:+: s := by
  intro chs
  induction chs with
  | nil =>
    intro _ u hu _ hhead
    obtain ⟨u', rfl⟩ := hhead
    exact absurd (List.infix_nil.mp hu) (List.cons_ne_nil _ _)
  | cons ch t ih =>
    intro hinv u hu hnul hhead
    have hinvt : ∀ t', t' <:+ t → rawRun t' <:+: s :=
      fun t' ht' => hinv t' (ht'.trans (List.suffix_cons _ _))
    cases ch with
    | raw c =>
      rw [show renderChunks (Chunk.raw c :: t) = c :: renderChunks t
        from rfl] at hu
      rcases List.infix_cons_iff.mp hu with hpre | hinf
      · have hp : isPre u (renderChunks (Chunk.raw c :: t)) = true :=
          isPre_true_iff.mpr hpre
        have hr := isPre_rawRun_of_nulFree (Chunk.raw c :: t) u hnul hp
        exact (isPre_true_iff.mp hr).isInfix.trans
          (hinv _ (List.suffix_refl _))
      · exact ih hinvt u hinf hnul hhead
    | sent i =>
      rw [show renderChunks (Chunk.sent i :: t) = sentinel i ++ renderChunks t
        from rfl] at hu
      obtain ⟨u', rfl⟩ := hhead
      rcases infix_split hu with h | h | ⟨u1, u2, heq, hne, hsuf, hpre⟩
      · exact absurd (h.subset (List.mem_cons_self _ _))
          (backquote_not_mem_sentinel i)
      · exact ih hinvt _ h hnul ⟨u', rfl⟩
      · cases u1 with
        | nil => exact absurd rfl hne
        | cons d u1' =>
          rw [show (d :: u1') ++ u2 = d :: (u1' ++ u2) from rfl] at heq
          injection heq with hd _
          have hdm : d ∈ sentinel i := hsuf.subset (List.mem_cons_self _ _)
          rw [← hd] at hdm
          exact absurd hdm (backquote_not_mem_sentinel i)

/-! ## Soundness of the backtick-run matcher -/

end FlareStack